import Mathlib

/-!
Shallow embedding of the rspell typo checker (src/main.rs and
src/parsing/word_separator.rs).

Strings are modelled as `List Char`.  Rust `str::len` is the UTF-8 byte
count, modelled by `utf8Len`.  The character classifiers (`Char.isUpper`,
`Char.isLower`, `Char.isAlphanum`, `Char.isWhitespace`, `Char.toLower`)
model their Rust counterparts on the ASCII fragment; all concrete inputs
used below are ASCII, where the two agree.
-/

/-- Character list of a string literal. -/
def strOf (s : String) : List Char := s.data

/-- Model of Rust `str::len`: the UTF-8 byte length of the string. -/
def utf8Len (l : List Char) : Nat := (l.map Char.utf8Size).sum

/-- Maximal runs of characters satisfying `p`, dropping the separators:
`runsAcc p cur l` processes `l` one character at a time, carrying the
current (possibly empty) run `cur`. -/
def runsAcc (p : Char → Bool) (cur : List Char) : List Char → List (List Char)
  | [] => if cur.isEmpty then [] else [cur]
  | c :: cs =>
    if p c then runsAcc p (cur ++ [c]) cs
    else if cur.isEmpty then runsAcc p [] cs
    else cur :: runsAcc p [] cs

/-- Maximal runs of characters satisfying `p` in `l`. -/
def runsOf (p : Char → Bool) (l : List Char) : List (List Char) :=
  runsAcc p [] l

/-- Word-forming characters for the ASCII model of UAX#29 word
segmentation: alphanumerics, plus underscore (ExtendNumLet), which joins
words without being alphanumeric itself. -/
def isWordChar (c : Char) : Bool := c.isAlphanum || c == '_'

/-- Model of `UnicodeSegmentation::unicode_words` (the `unicode_words`
calls in main.rs and word_separator.rs), restricted to ASCII input with
no MidLetter/MidNum characters inside words: the maximal runs of
word-forming characters, keeping only runs that contain at least one
alphanumeric character. -/
def unicodeWords (l : List Char) : List (List Char) :=
  (runsOf isWordChar l).filter (fun w => w.any Char.isAlphanum)

/-- Model of `split_special_characters` in main.rs: `input.unicode_words()`. -/
def split_special_characters (input : List Char) : List (List Char) :=
  unicodeWords input

/-- Loop body of `split_pascal_case` in main.rs: `cur` is the `current`
accumulator; an uppercase character flushes a non-empty `current` and
starts a new word; the final `current` is always pushed. -/
def splitPascalAux (cur : List Char) : List Char → List (List Char)
  | [] => [cur]
  | c :: cs =>
    if c.isUpper && !cur.isEmpty then cur :: splitPascalAux [c] cs
    else splitPascalAux (cur ++ [c]) cs

/-- Model of `split_pascal_case` in main.rs. -/
def split_pascal_case (input : List Char) : List (List Char) :=
  splitPascalAux [] input

/-- Model of `get_all_word_parts` in main.rs: split on special characters,
then flat-map the pascal-case splitter over the pieces. -/
def get_all_word_parts (input : List Char) : List (List Char) :=
  (split_special_characters input).flatMap split_pascal_case

/-- Model of the dictionary (`HashSet<String>` in main.rs): a list of
words; `contains` is the sole operation used. -/
def Dictionary : Type := List (List Char)

/-- Fuel-indexed model of `contains_typo` in main.rs; the recursion of the
source is well founded (each recursive call is on a strictly shorter
string, see `get_all_word_parts_lt`), so any fuel above the length of the
input realises it.  `contains_typo` below fixes the fuel and
`contains_typo_unfold` proves the resulting function satisfies exactly
the recurrence of the source. -/
def containsTypoFuel (dict : List (List Char)) : Nat → List Char → Bool
  | 0, _ => false
  | fuel + 1, input =>
    if utf8Len input < 3 then false
    else if dict.contains input then false
    else
      let word_parts := get_all_word_parts input
      if word_parts.length = 1 then true
      else word_parts.any (fun w => containsTypoFuel dict fuel (w.map Char.toLower))

/-- Model of `contains_typo` in main.rs (see `contains_typo_unfold` for
the defining recurrence, identical to the source). -/
def contains_typo (dict : List (List Char)) (input : List Char) : Bool :=
  containsTypoFuel dict (input.length + 1) input

/-- Model of Rust `str::split`: the pieces of `l` between the characters
satisfying `p`, keeping empty pieces; the result always has at least one
piece. -/
def splitP (p : Char → Bool) : List Char → List (List Char)
  | [] => [[]]
  | c :: cs =>
    if p c then [] :: splitP p cs
    else
      match splitP p cs with
      | [] => [[c]]
      | x :: xs => (c :: x) :: xs

/-- Model of Rust `str::split_terminator`: like `split`, but a trailing
empty piece is skipped. -/
def splitTerminator (p : Char → Bool) (l : List Char) : List (List Char) :=
  let r := splitP p l
  if r.getLastD [] = [] then r.dropLast else r

/-- Model of `split_on_numbers` in word_separator.rs:
`split_terminator` on ASCII digits. -/
def split_on_numbers (text : List Char) : List (List Char) :=
  splitTerminator Char.isDigit text

/-- Model of `split_snake_case` in word_separator.rs:
`split_terminator` on underscores. -/
def split_snake_case (text : List Char) : List (List Char) :=
  splitTerminator (fun c => c == '_') text

/-- Model of `split_unicode_word_boundary` in word_separator.rs:
`text.unicode_words()`. -/
def split_unicode_word_boundary (text : List Char) : List (List Char) :=
  unicodeWords text

/-- Scanner state for the camel-case regex of word_separator.rs. -/
inductive CamelState : Type where
  | start : CamelState
  | upper : List Char → CamelState
  | low : List Char → CamelState

/-- Left-to-right scanner equivalent to iterating the leftmost-first
regex `(\p{Lu}+(?=\p{Lu}\p{Ll})|\p{Lu}?\p{Ll}+)` of `split_camel_case`
in word_separator.rs over the input (restricted to ASCII, where `\p{Lu}`
is `Char.isUpper` and `\p{Ll}` is `Char.isLower`).  In state `upper u`
the scanner has read the uppercase run `u`; the first alternative emits
`u.dropLast` exactly when `u` has length at least two and is followed by
a lowercase character (the lookahead `\p{Lu}\p{Ll}`), and the second
alternative then resumes at the last character of `u`.  In state `low p`
the scanner is inside a `\p{Lu}?\p{Ll}+` match `p`.  A character that
can extend no match is skipped, discarding a pending uppercase run
(which the regex cannot match without the lookahead). -/
def camelScan (st : CamelState) : List Char → List (List Char)
  | [] =>
    match st with
    | CamelState.low p => [p]
    | _ => []
  | c :: cs =>
    match st with
    | CamelState.start =>
      if c.isUpper then camelScan (CamelState.upper [c]) cs
      else if c.isLower then camelScan (CamelState.low [c]) cs
      else camelScan CamelState.start cs
    | CamelState.upper u =>
      if c.isUpper then camelScan (CamelState.upper (u ++ [c])) cs
      else if c.isLower then
        if 2 ≤ u.length then u.dropLast :: camelScan (CamelState.low [u.getLastD c, c]) cs
        else camelScan (CamelState.low [u.getLastD c, c]) cs
      else camelScan CamelState.start cs
    | CamelState.low p =>
      if c.isLower then camelScan (CamelState.low (p ++ [c])) cs
      else if c.isUpper then p :: camelScan (CamelState.upper [c]) cs
      else p :: camelScan CamelState.start cs

/-- Model of `split_camel_case` in word_separator.rs: all matches of the
regex `(\p{Lu}+(?=\p{Lu}\p{Ll})|\p{Lu}?\p{Ll}+)` in the input, in order. -/
def split_camel_case (text : List Char) : List (List Char) :=
  camelScan CamelState.start text

/-- Model of `extract_words` in word_separator.rs: split on whitespace,
then flat-map digit splitting, unicode word splitting, snake-case
splitting and camel-case splitting, lowercase every piece, and keep the
pieces of byte length above two. -/
def extract_words (text : List Char) : List (List Char) :=
  (((((runsOf (fun c => !c.isWhitespace) text).flatMap
        split_on_numbers).flatMap
        split_unicode_word_boundary).flatMap
        split_snake_case).flatMap
        split_camel_case).map (fun s => s.map Char.toLower)
    |>.filter (fun s => 2 < utf8Len s)

/-- Model of a tree-sitter syntax node as consumed by `handle_file` in
main.rs: its kind, the source text of its byte range, and its children. -/
inductive SNode : Type where
  | mk : List Char → List Char → List SNode → SNode

/-- Kind tag of a node. -/
def SNode.kind : SNode → List Char
  | SNode.mk k _ _ => k

/-- Source text sliced out of the byte range of a node. -/
def SNode.text : SNode → List Char
  | SNode.mk _ t _ => t

/-- Children of a node. -/
def SNode.children : SNode → List SNode
  | SNode.mk _ _ cs => cs

mutual

/-- Visit order of the cursor loop in `handle_file` in main.rs: the loop
visits a node, descends to its first child when present, otherwise moves
to the next sibling, otherwise climbs until a sibling exists — a
depth-first pre-order visiting every node exactly once. -/
def preorder : SNode → List SNode
  | SNode.mk k t cs => SNode.mk k t cs :: preorderList cs

/-- Pre-order visit sequence of a forest, left to right. -/
def preorderList : List SNode → List SNode
  | [] => []
  | n :: ns => preorder n ++ preorderList ns

end

/-- Model of `KIND_TO_TYPE_CHECK` in main.rs. -/
def KIND_TO_TYPE_CHECK : List (List Char) :=
  [strOf "comment", strOf "string_fragment", strOf "identifier",
   strOf "property_identifier"]

/-- Loop body of `handle_file` in main.rs for one visited node: when the
node kind is in `KIND_TO_TYPE_CHECK`, increment `found` if the text
contains a typo and always increment `total`. -/
def visitCounts (dict : List (List Char)) (acc : Nat × Nat) (n : SNode) : Nat × Nat :=
  if KIND_TO_TYPE_CHECK.contains n.kind then
    (if contains_typo dict n.text then acc.1 + 1 else acc.1, acc.2 + 1)
  else acc

/-- Model of `handle_file` in main.rs (file reading and parsing are the
callers of this core; the walk itself starts from the root node with
both counters at zero). -/
def handle_file (dict : List (List Char)) (root : SNode) : Nat × Nat :=
  (preorder root).foldl (visitCounts dict) (0, 0)

/-! ### Properties of the run splitter -/

/-- Runs emitted by `runsAcc` are never empty. -/
theorem runsAcc_mem_ne_nil (p : Char → Bool) (l : List Char) :
    ∀ (cur : List Char), ∀ w ∈ runsAcc p cur l, w ≠ [] := by
  induction l with
  | nil =>
    intro cur w hw
    by_cases hcur : cur.isEmpty
    · simp [runsAcc, hcur] at hw
    · simp [runsAcc, hcur] at hw
      subst hw
      simpa [List.isEmpty_iff] using hcur
  | cons c cs ih =>
    intro cur w hw
    by_cases hpc : p c
    · simp only [runsAcc, hpc, if_true] at hw
      exact ih _ w hw
    · by_cases hcur : cur.isEmpty
      · simp only [runsAcc, hpc, hcur, if_false, if_true, Bool.false_eq_true] at hw
        exact ih _ w hw
      · simp only [runsAcc, hpc, hcur, if_false, Bool.false_eq_true] at hw
        rw [List.mem_cons] at hw
        rcases hw with rfl | hw
        · simpa [List.isEmpty_iff] using hcur
        · exact ih _ w hw

/-- A run is no longer than the pending run plus the remaining input. -/
theorem runsAcc_mem_length_le (p : Char → Bool) (l : List Char) :
    ∀ (cur w : List Char), w ∈ runsAcc p cur l → w.length ≤ cur.length + l.length := by
  induction l with
  | nil =>
    intro cur w hw
    by_cases hcur : cur.isEmpty
    · simp [runsAcc, hcur] at hw
    · simp [runsAcc, hcur] at hw
      subst hw
      simp
  | cons c cs ih =>
    intro cur w hw
    by_cases hpc : p c
    · simp only [runsAcc, hpc, if_true] at hw
      have h := ih (cur ++ [c]) w hw
      simp only [List.length_append, List.length_cons, List.length_nil] at h ⊢
      omega
    · by_cases hcur : cur.isEmpty
      · simp only [runsAcc, hpc, hcur, if_false, if_true, Bool.false_eq_true] at hw
        have h := ih [] w hw
        simp only [List.length_nil, List.length_cons] at h ⊢
        omega
      · simp only [runsAcc, hpc, hcur, if_false, Bool.false_eq_true] at hw
        rw [List.mem_cons] at hw
        rcases hw with rfl | hw
        · simp only [List.length_cons]
          omega
        · have h := ih [] w hw
          simp only [List.length_nil, List.length_cons] at h ⊢
          omega

/-- When at least two runs come out, every run is strictly shorter than
the pending run plus the remaining input. -/
theorem runsAcc_mem_length_lt (p : Char → Bool) (l : List Char) :
    ∀ (cur w : List Char), w ∈ runsAcc p cur l → 2 ≤ (runsAcc p cur l).length →
      w.length < cur.length + l.length := by
  induction l with
  | nil =>
    intro cur w hw h2
    by_cases hcur : cur.isEmpty
    · simp [runsAcc, hcur] at hw
    · simp [runsAcc, hcur] at h2
  | cons c cs ih =>
    intro cur w hw h2
    by_cases hpc : p c
    · simp only [runsAcc, hpc, if_true] at hw h2
      have h := ih (cur ++ [c]) w hw h2
      simp only [List.length_append, List.length_cons, List.length_nil] at h ⊢
      omega
    · by_cases hcur : cur.isEmpty
      · simp only [runsAcc, hpc, hcur, if_false, if_true, Bool.false_eq_true] at hw h2
        have h := ih [] w hw h2
        simp only [List.length_nil, List.length_cons] at h ⊢
        omega
      · simp only [runsAcc, hpc, hcur, if_false, Bool.false_eq_true] at hw
        have hc : cur ≠ [] := by simpa [List.isEmpty_iff] using hcur
        have hc1 : 1 ≤ cur.length := List.length_pos.mpr hc
        rw [List.mem_cons] at hw
        rcases hw with rfl | hw
        · simp only [List.length_cons]
          omega
        · have h := runsAcc_mem_length_le p cs [] w hw
          simp only [List.length_nil, List.length_cons] at h ⊢
          omega

/-- Every character of a run comes from the pending run or the input. -/
theorem runsAcc_mem_mem (p : Char → Bool) (l : List Char) :
    ∀ (cur w : List Char), w ∈ runsAcc p cur l → ∀ a ∈ w, a ∈ cur ∨ a ∈ l := by
  induction l with
  | nil =>
    intro cur w hw a ha
    by_cases hcur : cur.isEmpty
    · simp [runsAcc, hcur] at hw
    · simp [runsAcc, hcur] at hw
      subst hw
      exact Or.inl ha
  | cons c cs ih =>
    intro cur w hw a ha
    by_cases hpc : p c
    · simp only [runsAcc, hpc, if_true] at hw
      rcases ih (cur ++ [c]) w hw a ha with h | h
      · rw [List.mem_append, List.mem_singleton] at h
        rcases h with h | rfl
        · exact Or.inl h
        · exact Or.inr (List.mem_cons_self a cs)
      · exact Or.inr (List.mem_cons_of_mem c h)
    · by_cases hcur : cur.isEmpty
      · simp only [runsAcc, hpc, hcur, if_false, if_true, Bool.false_eq_true] at hw
        rcases ih [] w hw a ha with h | h
        · simp at h
        · exact Or.inr (List.mem_cons_of_mem c h)
      · simp only [runsAcc, hpc, hcur, if_false, Bool.false_eq_true] at hw
        rw [List.mem_cons] at hw
        rcases hw with rfl | hw
        · exact Or.inl ha
        · rcases ih [] w hw a ha with h | h
          · simp at h
          · exact Or.inr (List.mem_cons_of_mem c h)

/-- When every character of the input satisfies `p`, the whole input is a
single run (prefixed by the pending run). -/
theorem runsAcc_all (p : Char → Bool) (l : List Char) :
    ∀ (cur : List Char), (∀ c ∈ l, p c = true) → cur ≠ [] ∨ l ≠ [] →
      runsAcc p cur l = [cur ++ l] := by
  induction l with
  | nil =>
    intro cur _ hne
    have hc : cur ≠ [] := by
      rcases hne with h | h
      · exact h
      · exact absurd rfl h
    simp [runsAcc, List.isEmpty_iff, hc]
  | cons c cs ih =>
    intro cur hall _
    have hpc : p c = true := hall c (List.mem_cons_self c cs)
    have h := ih (cur ++ [c]) (fun d hd => hall d (List.mem_cons_of_mem c hd))
      (Or.inl (by simp))
    simp only [runsAcc, hpc, if_true, h]
    simp

/-- A character satisfying `q` (with `q` implying `p`) survives into some
run: the runs of an input with a `q`-character include a run with a
`q`-character. -/
theorem runsAcc_any (p q : Char → Bool) (hpq : ∀ c, q c = true → p c = true)
    (l : List Char) :
    ∀ (cur : List Char), (cur.any q || l.any q) = true →
      (runsAcc p cur l).any (fun w => w.any q) = true := by
  induction l with
  | nil =>
    intro cur hq
    simp only [List.any_nil, Bool.or_false] at hq
    have hc : cur ≠ [] := by
      intro h
      subst h
      simp at hq
    simp [runsAcc, List.isEmpty_iff, hc, hq]
  | cons c cs ih =>
    intro cur hq
    by_cases hpc : p c
    · simp only [runsAcc, hpc, if_true]
      apply ih (cur ++ [c])
      simp only [List.any_append, List.any_cons] at hq ⊢
      rcases Bool.or_eq_true_iff.mp hq with h | h
      · simp [h]
      · rcases Bool.or_eq_true_iff.mp h with h | h
        · simp [h]
        · simp [h]
    · have hqc : q c = false := by
        cases hq2 : q c
        · rfl
        · exact absurd (hpq c hq2) hpc
      by_cases hcur : cur.isEmpty
      · simp only [runsAcc, hpc, hcur, if_false, if_true, Bool.false_eq_true]
        apply ih []
        have hc : cur = [] := List.isEmpty_iff.mp hcur
        subst hc
        simp only [List.any_nil, List.any_cons, hqc, Bool.false_or] at hq ⊢
        exact hq
      · simp only [runsAcc, hpc, hcur, if_false, Bool.false_eq_true, List.any_cons]
        simp only [List.any_cons, hqc, Bool.false_or] at hq
        rcases Bool.or_eq_true_iff.mp hq with h | h
        · simp [h]
        · have := ih [] (by simpa using h)
          simp [this]

/-! ### Properties of the pascal-case splitter -/

/-- The pascal splitter always emits at least one piece (the final
`current` is pushed unconditionally). -/
theorem splitPascalAux_ne_nil (l : List Char) :
    ∀ (cur : List Char), splitPascalAux cur l ≠ [] := by
  induction l with
  | nil => intro cur; simp [splitPascalAux]
  | cons c cs ih =>
    intro cur
    by_cases h : c.isUpper && !cur.isEmpty
    · simp [splitPascalAux, h]
    · simp only [splitPascalAux, h, Bool.false_eq_true, if_false]
      exact ih _

/-- A pascal piece is no longer than the accumulator plus the input. -/
theorem splitPascalAux_mem_length_le (l : List Char) :
    ∀ (cur w : List Char), w ∈ splitPascalAux cur l →
      w.length ≤ cur.length + l.length := by
  induction l with
  | nil =>
    intro cur w hw
    simp only [splitPascalAux, List.mem_singleton] at hw
    subst hw
    simp
  | cons c cs ih =>
    intro cur w hw
    by_cases h : c.isUpper && !cur.isEmpty
    · simp only [splitPascalAux, h, if_true, List.mem_cons] at hw
      rcases hw with rfl | hw
      · simp only [List.length_cons]
        omega
      · have := ih [c] w hw
        simp only [List.length_cons, List.length_nil] at this ⊢
        omega
    · simp only [splitPascalAux, h, Bool.false_eq_true, if_false] at hw
      have := ih (cur ++ [c]) w hw
      simp only [List.length_append, List.length_cons, List.length_nil] at this ⊢
      omega

/-- When the pascal splitter emits at least two pieces from a non-empty
accumulator, every piece is strictly shorter than the accumulator plus
the input. -/
theorem splitPascalAux_mem_length_lt (l : List Char) :
    ∀ (cur w : List Char), w ∈ splitPascalAux cur l →
      2 ≤ (splitPascalAux cur l).length → cur ≠ [] →
      w.length < cur.length + l.length := by
  induction l with
  | nil =>
    intro cur w hw h2 _
    simp [splitPascalAux] at h2
  | cons c cs ih =>
    intro cur w hw h2 hcur
    have hc1 : 1 ≤ cur.length := List.length_pos.mpr hcur
    by_cases h : c.isUpper && !cur.isEmpty
    · simp only [splitPascalAux, h, if_true, List.mem_cons] at hw
      rcases hw with rfl | hw
      · simp only [List.length_cons]
        omega
      · have := splitPascalAux_mem_length_le cs [c] w hw
        simp only [List.length_cons, List.length_nil] at this ⊢
        omega
    · simp only [splitPascalAux, h, Bool.false_eq_true, if_false] at hw h2
      have := ih (cur ++ [c]) w hw h2 (by simp)
      simp only [List.length_append, List.length_cons, List.length_nil] at this ⊢
      omega

/-- With no uppercase character in the input, the pascal splitter never
flushes: the result is the single piece `cur ++ l`. -/
theorem splitPascalAux_no_upper (l : List Char) :
    ∀ (cur : List Char), (∀ c ∈ l, c.isUpper = false) →
      splitPascalAux cur l = [cur ++ l] := by
  induction l with
  | nil => intro cur _; simp [splitPascalAux]
  | cons c cs ih =>
    intro cur hall
    have hc : c.isUpper = false := hall c (List.mem_cons_self c cs)
    simp only [splitPascalAux, hc, Bool.false_and, Bool.false_eq_true, if_false]
    rw [ih (cur ++ [c]) (fun d hd => hall d (List.mem_cons_of_mem c hd))]
    simp

/-- Unfolding of `split_pascal_case` on a non-empty input: the first
character never flushes the empty accumulator. -/
theorem split_pascal_case_cons (c : Char) (cs : List Char) :
    split_pascal_case (c :: cs) = splitPascalAux [c] cs := by
  simp [split_pascal_case, splitPascalAux]

/-- A piece of `split_pascal_case` is no longer than the input. -/
theorem split_pascal_case_mem_length_le (u w : List Char)
    (hw : w ∈ split_pascal_case u) : w.length ≤ u.length := by
  have := splitPascalAux_mem_length_le u [] w hw
  simpa using this

/-- `split_pascal_case` never returns the empty list. -/
theorem split_pascal_case_ne_nil (u : List Char) : split_pascal_case u ≠ [] :=
  splitPascalAux_ne_nil u []

/-- When `split_pascal_case` cuts a non-empty input into at least two
pieces, every piece is strictly shorter than the input. -/
theorem split_pascal_case_mem_length_lt (u w : List Char) (hu : u ≠ [])
    (hw : w ∈ split_pascal_case u) (h2 : 2 ≤ (split_pascal_case u).length) :
    w.length < u.length := by
  obtain ⟨c, cs, rfl⟩ := List.exists_cons_of_ne_nil hu
  rw [split_pascal_case_cons] at hw h2
  have := splitPascalAux_mem_length_lt cs [c] w hw h2 (by simp)
  simp only [List.length_cons, List.length_nil] at this ⊢
  omega

/-! ### Properties of the word splitter and of `get_all_word_parts` -/

/-- Words produced by `unicodeWords` are never empty. -/
theorem unicodeWords_mem_ne_nil (l w : List Char) (hw : w ∈ unicodeWords l) :
    w ≠ [] := by
  rw [unicodeWords, List.mem_filter] at hw
  exact runsAcc_mem_ne_nil isWordChar l [] w hw.1

/-- A word is no longer than the input it was cut from. -/
theorem unicodeWords_mem_length_le (l w : List Char) (hw : w ∈ unicodeWords l) :
    w.length ≤ l.length := by
  rw [unicodeWords, List.mem_filter] at hw
  have := runsAcc_mem_length_le isWordChar l [] w hw.1
  simpa using this

/-- When the input splits into at least two words, every word is strictly
shorter than the input. -/
theorem unicodeWords_mem_length_lt (l w : List Char) (hw : w ∈ unicodeWords l)
    (h2 : 2 ≤ (unicodeWords l).length) : w.length < l.length := by
  rw [unicodeWords, List.mem_filter] at hw
  have hr : 2 ≤ (runsAcc isWordChar [] l).length := by
    calc 2 ≤ (unicodeWords l).length := h2
    _ ≤ (runsAcc isWordChar [] l).length := by
        rw [unicodeWords, runsOf]
        exact List.length_filter_le _ _
  have := runsAcc_mem_length_lt isWordChar l [] w hw.1 hr
  simpa using this

/-- A non-empty all-alphanumeric input is a single word. -/
theorem unicodeWords_single (l : List Char) (hne : l ≠ [])
    (hall : ∀ c ∈ l, c.isAlphanum = true) : unicodeWords l = [l] := by
  have hword : ∀ c ∈ l, isWordChar c = true := by
    intro c hc
    simp [isWordChar, hall c hc]
  have hruns : runsOf isWordChar l = [l] := runsAcc_all isWordChar l [] hword (Or.inr hne)
  obtain ⟨c, cs, rfl⟩ := List.exists_cons_of_ne_nil hne
  rw [unicodeWords, hruns]
  have : (c :: cs).any Char.isAlphanum = true := by
    simp [hall c (List.mem_cons_self c cs)]
  simp [List.filter, this]

/-- With no alphanumeric character in the input, every run fails the
alphanumeric filter and the input yields no words at all. -/
theorem unicodeWords_nil_of_no_alnum (l : List Char)
    (h : ∀ c ∈ l, c.isAlphanum = false) : unicodeWords l = [] := by
  rw [unicodeWords, List.filter_eq_nil_iff]
  intro w hw
  rw [Bool.not_eq_true, ← Bool.not_eq_true]
  intro hany
  rw [List.any_eq_true] at hany
  obtain ⟨a, ha, hq⟩ := hany
  rcases runsAcc_mem_mem isWordChar l [] w hw a ha with hmem | hmem
  · simp at hmem
  · rw [h a hmem] at hq
    exact Bool.false_ne_true hq

/-- An input with an alphanumeric character yields at least one word. -/
theorem unicodeWords_ne_nil (l : List Char) (h : l.any Char.isAlphanum = true) :
    unicodeWords l ≠ [] := by
  have hpq : ∀ c, Char.isAlphanum c = true → isWordChar c = true := by
    intro c hc
    simp [isWordChar, hc]
  have hany := runsAcc_any isWordChar Char.isAlphanum hpq l [] (by simpa using h)
  rw [List.any_eq_true] at hany
  obtain ⟨w, hw, hq⟩ := hany
  have : w ∈ unicodeWords l := by
    rw [unicodeWords, List.mem_filter]
    exact ⟨hw, hq⟩
  exact List.ne_nil_of_mem this

/-- Recursion measure of `contains_typo`: when `get_all_word_parts` cuts
the input into at least two parts, every part is strictly shorter than
the input. -/
theorem get_all_word_parts_lt (s : List Char)
    (h2 : 2 ≤ (get_all_word_parts s).length) :
    ∀ w ∈ get_all_word_parts s, w.length < s.length := by
  intro w hw
  rw [get_all_word_parts, split_special_characters, List.mem_flatMap] at hw
  obtain ⟨u, hu, hwu⟩ := hw
  rcases Nat.lt_or_ge (unicodeWords s).length 2 with hlen | hlen
  · have h1 : (unicodeWords s).length = 1 := by
      have h0 : (unicodeWords s).length ≠ 0 := by
        intro h0
        rw [List.length_eq_zero] at h0
        rw [h0] at hu
        simp at hu
      omega
    obtain ⟨a, ha⟩ := List.length_eq_one.mp h1
    have hau : a = u := by
      rw [ha, List.mem_singleton] at hu
      exact hu.symm
    subst hau
    have hflat : get_all_word_parts s = split_pascal_case a := by
      rw [get_all_word_parts, split_special_characters, ha]
      simp
    rw [hflat] at h2
    have hne : a ≠ [] := unicodeWords_mem_ne_nil s a (ha ▸ List.mem_singleton.mpr rfl)
    have hlt := split_pascal_case_mem_length_lt a w hne hwu h2
    have hle := unicodeWords_mem_length_le s a (ha ▸ List.mem_singleton.mpr rfl)
    omega
  · have hult := unicodeWords_mem_length_lt s u hu hlen
    have hwle := split_pascal_case_mem_length_le u w hwu
    omega

/-- Totality on inputs with a word character: `get_all_word_parts` of an
input containing an alphanumeric character is non-empty. -/
theorem get_all_word_parts_ne_nil (s : List Char)
    (h : s.any Char.isAlphanum = true) : get_all_word_parts s ≠ [] := by
  intro hnil
  rw [get_all_word_parts, split_special_characters, List.flatMap_eq_nil_iff] at hnil
  obtain ⟨u, hu⟩ := List.exists_mem_of_ne_nil _ (unicodeWords_ne_nil s h)
  exact split_pascal_case_ne_nil u (hnil u hu)

/-- A non-empty all-alphanumeric input with no uppercase character comes
back unchanged as the single part. -/
theorem get_all_word_parts_id (s : List Char) (hne : s ≠ [])
    (halnum : ∀ c ∈ s, c.isAlphanum = true)
    (hupper : ∀ c ∈ s, c.isUpper = false) : get_all_word_parts s = [s] := by
  rw [get_all_word_parts, split_special_characters, unicodeWords_single s hne halnum]
  simp only [List.flatMap_cons, List.flatMap_nil, List.append_nil]
  rw [split_pascal_case, splitPascalAux_no_upper s [] hupper]
  simp

/-- With no alphanumeric character at all, segmentation yields no parts. -/
theorem get_all_word_parts_nil (s : List Char)
    (h : ∀ c ∈ s, c.isAlphanum = false) : get_all_word_parts s = [] := by
  rw [get_all_word_parts, split_special_characters, unicodeWords_nil_of_no_alnum s h]
  rfl

/-! ### The recurrence of `contains_typo` -/

/-- Congruence of `List.any` for pointwise equal predicates. -/
theorem any_congr_mem {α : Type} {l : List α} {f g : α → Bool}
    (h : ∀ x ∈ l, f x = g x) : l.any f = l.any g := by
  induction l with
  | nil => rfl
  | cons x xs ih =>
    simp only [List.any_cons]
    rw [h x (List.mem_cons_self x xs), ih (fun y hy => h y (List.mem_cons_of_mem x hy))]

/-- The fuel of `containsTypoFuel` is irrelevant above the input length:
the recursion of the source always descends to strictly shorter strings
(`get_all_word_parts_lt`), so any sufficient fuel computes the same
answer. -/
theorem containsTypoFuel_congr (dict : List (List Char)) :
    ∀ (n f g : Nat) (input : List Char), input.length < f → input.length < g →
      input.length ≤ n → containsTypoFuel dict f input = containsTypoFuel dict g input := by
  intro n
  induction n with
  | zero =>
    intro f g input hf hg hn
    obtain ⟨f', rfl⟩ : ∃ f', f = f' + 1 := ⟨f - 1, by omega⟩
    obtain ⟨g', rfl⟩ : ∃ g', g = g' + 1 := ⟨g - 1, by omega⟩
    have : input = [] := List.length_eq_zero.mp (by omega)
    subst this
    simp [containsTypoFuel, utf8Len]
  | succ n ih =>
    intro f g input hf hg hn
    obtain ⟨f', rfl⟩ : ∃ f', f = f' + 1 := ⟨f - 1, by omega⟩
    obtain ⟨g', rfl⟩ : ∃ g', g = g' + 1 := ⟨g - 1, by omega⟩
    by_cases h1 : utf8Len input < 3
    · simp [containsTypoFuel, h1]
    · by_cases h2 : input ∈ dict
      · simp [containsTypoFuel, h1, h2]
      · by_cases h3 : (get_all_word_parts input).length = 1
        · simp [containsTypoFuel, h1, h2, h3]
        · simp only [containsTypoFuel]
          simp only [h1, if_false]
          simp [h1, h2, h3]
          apply any_congr_mem
          intro w hw
          have h2parts : 2 ≤ (get_all_word_parts input).length := by
            have hpos : 0 < (get_all_word_parts input).length :=
              List.length_pos.mpr (List.ne_nil_of_mem hw)
            omega
          have hlt : w.length < input.length := get_all_word_parts_lt input h2parts w hw
          have hmap : (w.map Char.toLower).length = w.length := List.length_map w Char.toLower
          apply ih f' g' (w.map Char.toLower) (by omega) (by omega) (by omega)

/-- Defining recurrence of `contains_typo`: the model satisfies exactly
the branch structure of `contains_typo` in main.rs. -/
theorem contains_typo_unfold (dict : List (List Char)) (input : List Char) :
    contains_typo dict input =
      if utf8Len input < 3 then false
      else if dict.contains input then false
      else if (get_all_word_parts input).length = 1 then true
      else (get_all_word_parts input).any
        (fun w => contains_typo dict (w.map Char.toLower)) := by
  rw [contains_typo]
  by_cases h1 : utf8Len input < 3
  · simp [containsTypoFuel, h1]
  · by_cases h2 : input ∈ dict
    · simp [containsTypoFuel, h1, h2]
    · by_cases h3 : (get_all_word_parts input).length = 1
      · simp [containsTypoFuel, h1, h2, h3]
      · simp only [containsTypoFuel]
        simp [h1, h2, h3]
        apply any_congr_mem
        intro w hw
        have h2parts : 2 ≤ (get_all_word_parts input).length := by
          have hpos : 0 < (get_all_word_parts input).length :=
            List.length_pos.mpr (List.ne_nil_of_mem hw)
          omega
        have hlt : w.length < input.length := get_all_word_parts_lt input h2parts w hw
        have hmap : (w.map Char.toLower).length = w.length := List.length_map w Char.toLower
        rw [contains_typo]
        exact containsTypoFuel_congr dict (w.map Char.toLower).length input.length
          ((w.map Char.toLower).length + 1) (w.map Char.toLower)
          (by omega) (by omega) (by omega)

/-- A string of byte length below three is never a typo. -/
theorem contains_typo_short (dict : List (List Char)) (input : List Char)
    (h : utf8Len input < 3) : contains_typo dict input = false := by
  rw [contains_typo_unfold, if_pos h]

/-- A dictionary member is never a typo. -/
theorem contains_typo_mem (dict : List (List Char)) (input : List Char)
    (h : dict.contains input = true) : contains_typo dict input = false := by
  rw [contains_typo_unfold]
  have hm : input ∈ dict := by simpa using h
  by_cases h1 : utf8Len input < 3
  · rw [if_pos h1]
  · simp [h1, hm]

/-! ### The walker fold -/

/-- Running the loop body over a visit sequence counts, on top of the
starting pair, the flagged candidate nodes and all candidate nodes. -/
theorem foldl_visitCounts (dict : List (List Char)) (l : List SNode) :
    ∀ (a b : Nat), l.foldl (visitCounts dict) (a, b) =
      (a + (l.filter (fun n => KIND_TO_TYPE_CHECK.contains n.kind &&
              contains_typo dict n.text)).length,
       b + (l.filter (fun n => KIND_TO_TYPE_CHECK.contains n.kind)).length) := by
  induction l with
  | nil => intro a b; simp
  | cons n ns ih =>
    intro a b
    rw [List.foldl_cons]
    by_cases hk : n.kind ∈ KIND_TO_TYPE_CHECK
    · by_cases ht : contains_typo dict n.text
      · have hv : visitCounts dict (a, b) n = (a + 1, b + 1) := by
          simp [visitCounts, hk, ht]
        rw [hv, ih]
        have hf1 : (n :: ns).filter (fun n => KIND_TO_TYPE_CHECK.contains n.kind &&
            contains_typo dict n.text) = n :: ns.filter (fun n =>
            KIND_TO_TYPE_CHECK.contains n.kind && contains_typo dict n.text) := by
          rw [List.filter_cons_of_pos (by simp [hk, ht])]
        have hf2 : (n :: ns).filter (fun n => KIND_TO_TYPE_CHECK.contains n.kind) =
            n :: ns.filter (fun n => KIND_TO_TYPE_CHECK.contains n.kind) := by
          rw [List.filter_cons_of_pos (by simp [hk])]
        rw [hf1, hf2]
        simp only [List.length_cons, Prod.mk.injEq]
        constructor <;> ring_nf
      · have hv : visitCounts dict (a, b) n = (a, b + 1) := by
          simp [visitCounts, hk, ht]
        rw [hv, ih]
        have hf1 : (n :: ns).filter (fun n => KIND_TO_TYPE_CHECK.contains n.kind &&
            contains_typo dict n.text) = ns.filter (fun n =>
            KIND_TO_TYPE_CHECK.contains n.kind && contains_typo dict n.text) := by
          rw [List.filter_cons_of_neg (by simp [hk, ht])]
        have hf2 : (n :: ns).filter (fun n => KIND_TO_TYPE_CHECK.contains n.kind) =
            n :: ns.filter (fun n => KIND_TO_TYPE_CHECK.contains n.kind) := by
          rw [List.filter_cons_of_pos (by simp [hk])]
        rw [hf1, hf2]
        simp only [List.length_cons, Prod.mk.injEq]
        constructor <;> ring_nf
    · have hv : visitCounts dict (a, b) n = (a, b) := by
        simp [visitCounts, hk]
      rw [hv, ih]
      have hf1 : (n :: ns).filter (fun n => KIND_TO_TYPE_CHECK.contains n.kind &&
          contains_typo dict n.text) = ns.filter (fun n =>
          KIND_TO_TYPE_CHECK.contains n.kind && contains_typo dict n.text) := by
        rw [List.filter_cons_of_neg (by simp [hk])]
      have hf2 : (n :: ns).filter (fun n => KIND_TO_TYPE_CHECK.contains n.kind) =
          ns.filter (fun n => KIND_TO_TYPE_CHECK.contains n.kind) := by
        rw [List.filter_cons_of_neg (by simp [hk])]
      rw [hf1, hf2]

/-! ### Properties of the camel-case scanner -/

/-- On the ASCII model, a lowercase character is not uppercase. -/
theorem isUpper_eq_false_of_isLower (c : Char) (h : c.isLower = true) :
    c.isUpper = false := by
  simp only [Char.isLower, Bool.and_eq_true, decide_eq_true_eq] at h
  simp only [Char.isUpper]
  obtain ⟨h1, h2⟩ := h
  have h1n : (97 : Nat) ≤ c.val.toNat := h1
  have hn : ¬ c.val ≤ 90 := by
    intro hle
    have h2n : c.val.toNat ≤ (90 : Nat) := hle
    omega
  simp [hn]

/-- Scanner step: an uppercase character opens an uppercase run. -/
theorem camelScan_start_upper (c : Char) (cs : List Char) (h : c.isUpper = true) :
    camelScan CamelState.start (c :: cs) = camelScan (CamelState.upper [c]) cs := by
  simp [camelScan, h]

/-- Scanner step: an uppercase character extends an uppercase run. -/
theorem camelScan_upper_upper (u : List Char) (c : Char) (cs : List Char)
    (h : c.isUpper = true) :
    camelScan (CamelState.upper u) (c :: cs) =
      camelScan (CamelState.upper (u ++ [c])) cs := by
  simp [camelScan, h]

/-- Scanner step: a lowercase character after an uppercase run of length
at least two closes the run before its last character (the acronym rule
of the regex lookahead). -/
theorem camelScan_upper_lower (u : List Char) (c : Char) (cs : List Char)
    (hc : c.isLower = true) (hlen : 2 ≤ u.length) :
    camelScan (CamelState.upper u) (c :: cs) =
      u.dropLast :: camelScan (CamelState.low [u.getLastD c, c]) cs := by
  have hcu : c.isUpper = false := isUpper_eq_false_of_isLower c hc
  simp [camelScan, hc, hcu, hlen]

/-- Scanner run: a block of uppercase characters extends the current
uppercase run all the way. -/
theorem camelScan_upper_run (cs : List Char) (us : List Char) :
    ∀ (v : List Char), (∀ c ∈ us, c.isUpper = true) →
      camelScan (CamelState.upper v) (us ++ cs) =
        camelScan (CamelState.upper (v ++ us)) cs := by
  induction us with
  | nil => intro v _; simp
  | cons u us' ih =>
    intro v hall
    have hu : u.isUpper = true := hall u (List.mem_cons_self u us')
    rw [List.cons_append, camelScan_upper_upper v u (us' ++ cs) hu]
    rw [ih (v ++ [u]) (fun c hc => hall c (List.mem_cons_of_mem u hc))]
    simp

/-- Acronym rule of `split_camel_case`: a non-empty run of uppercase
characters followed by an uppercase character and then a lowercase
character is closed as its own word at that boundary. -/
theorem split_camel_case_acronym (us : List Char) (u l : Char) (rest : List Char)
    (hus : us ≠ []) (hall : ∀ c ∈ us, c.isUpper = true)
    (hu : u.isUpper = true) (hl : l.isLower = true) :
    split_camel_case (us ++ u :: l :: rest) =
      us :: split_camel_case (u :: l :: rest) := by
  obtain ⟨a, us', rfl⟩ := List.exists_cons_of_ne_nil hus
  have ha : a.isUpper = true := hall a (List.mem_cons_self a us')
  rw [split_camel_case, List.cons_append,
    camelScan_start_upper a (us' ++ u :: l :: rest) ha,
    camelScan_upper_run (u :: l :: rest) us' [a]
      (fun c hc => hall c (List.mem_cons_of_mem a hc)),
    camelScan_upper_upper ([a] ++ us') u (l :: rest) hu,
    camelScan_upper_lower (([a] ++ us') ++ [u]) l rest hl (by simp)]
  rw [split_camel_case, camelScan_start_upper u (l :: rest) hu]
  have h1 : camelScan (CamelState.upper [u]) (l :: rest) =
      camelScan (CamelState.low [u, l]) rest := by
    have hlu : l.isUpper = false := isUpper_eq_false_of_isLower l hl
    simp [camelScan, hl, hlu]
  rw [h1, List.dropLast_concat, List.getLastD_concat]
  simp

/-! ### Claims -/

/-- C1 (counterexample): segmentation is not total on every non-empty
string: the non-empty input "!!!" contains no word character, so both
`get_all_word_parts` and `extract_words` return the empty sequence. -/
theorem segmentation_not_total_cex :
    strOf "!!!" ≠ [] ∧ get_all_word_parts (strOf "!!!") = [] ∧
    extract_words (strOf "!!!") = [] := by
  refine ⟨by decide, by decide, by decide⟩

/-- C1 (amended): segmentation by `get_all_word_parts` returns at least
one sub-word for every input containing an alphanumeric character, and
returns the input itself as the single sub-word when the input is
non-empty, entirely alphanumeric and has no uppercase letter (no boundary
to find). -/
theorem segmentation_total_amended :
    (∀ s : List Char, s.any Char.isAlphanum = true →
      1 ≤ (get_all_word_parts s).length) ∧
    (∀ s : List Char, s ≠ [] → (∀ c ∈ s, c.isAlphanum = true) →
      (∀ c ∈ s, c.isUpper = false) → get_all_word_parts s = [s]) := by
  constructor
  · intro s h
    exact List.length_pos.mpr (get_all_word_parts_ne_nil s h)
  · intro s hne halnum hupper
    exact get_all_word_parts_id s hne halnum hupper

/-- C1 (witness): the amended totality at the concrete inputs "ab1" and
"hello". -/
theorem segmentation_total_amended_witness :
    1 ≤ (get_all_word_parts (strOf "ab1")).length ∧
    get_all_word_parts (strOf "hello") = [strOf "hello"] :=
  ⟨segmentation_total_amended.1 (strOf "ab1") (by decide),
   segmentation_total_amended.2 (strOf "hello") (by decide) (by decide) (by decide)⟩

/-- C2: a token of byte length at least three, absent from the
dictionary, whose segmentation yields exactly one part, is a typo; in
particular "xyzqqqw" with the empty dictionary. -/
theorem unsegmentable_unknown_is_typo :
    (∀ (dict : List (List Char)) (s : List Char), 3 ≤ utf8Len s →
      dict.contains s = false → (get_all_word_parts s).length = 1 →
      contains_typo dict s = true) ∧
    contains_typo [] (strOf "xyzqqqw") = true := by
  constructor
  · intro dict s h3 hdict h1
    rw [contains_typo_unfold, if_neg (by omega), hdict]
    simp [h1]
  · decide

/-- C2 (witness): the general statement at the concrete token "qqqq"
with the dictionary containing only "hello". -/
theorem unsegmentable_unknown_is_typo_witness :
    contains_typo [strOf "hello"] (strOf "qqqq") = true :=
  unsegmentable_unknown_is_typo.1 [strOf "hello"] (strOf "qqqq")
    (by decide) (by decide) (by decide)

/-- C3: a token of byte length below three is never flagged as a typo,
whatever the dictionary. -/
theorem short_token_never_typo (dict : List (List Char)) (s : List Char)
    (h : utf8Len s < 3) : contains_typo dict s = false :=
  contains_typo_short dict s h

/-- C3 (witness): the short token "ab" is not a typo, even with "ab"
itself in the dictionary. -/
theorem short_token_never_typo_witness :
    contains_typo [strOf "xy"] (strOf "ab") = false :=
  short_token_never_typo [strOf "xy"] (strOf "ab") (by decide)

/-- C4: past the length and dictionary checks, with two or more parts,
`contains_typo` is the disjunction of itself over the lowercased parts
(`List.any`, which short-circuits on the first true); in particular
"buildSubjectCrumbTrail" is clean over the dictionary
{build, subject, crumb, trail}. -/
theorem multi_part_recursion :
    (∀ (dict : List (List Char)) (s : List Char), ¬ utf8Len s < 3 →
      dict.contains s = false → 2 ≤ (get_all_word_parts s).length →
      contains_typo dict s = (get_all_word_parts s).any
        (fun w => contains_typo dict (w.map Char.toLower))) ∧
    contains_typo [strOf "build", strOf "subject", strOf "crumb", strOf "trail"]
      (strOf "buildSubjectCrumbTrail") = false := by
  constructor
  · intro dict s h3 hdict h2
    rw [contains_typo_unfold, if_neg h3, hdict]
    have h1 : (get_all_word_parts s).length ≠ 1 := by omega
    simp [h1]
  · decide

/-- C4 (witness): the recursion equation at the concrete token "abXy"
with the empty dictionary. -/
theorem multi_part_recursion_witness :
    contains_typo [] (strOf "abXy") = (get_all_word_parts (strOf "abXy")).any
      (fun w => contains_typo [] (w.map Char.toLower)) :=
  multi_part_recursion.1 [] (strOf "abXy") (by decide) (by decide) (by decide)

/-- C5 (counterexample): the segmentation used by the program does not
split on digits: "hello2world" stays whole. -/
theorem program_segmentation_keeps_digits_cex :
    get_all_word_parts (strOf "hello2world") ≠ [strOf "hello", strOf "world"] := by
  decide

/-- C5 (amended): digit-boundary splitting lives only in the
`extract_words` pipeline of word_separator.rs (not referenced from
main.rs), where it runs before case splitting and gives
`extract_words "hello2world" = ["hello", "world"]`; the segmentation
used by the program, `get_all_word_parts`, keeps digit runs attached. -/
theorem digit_split_only_in_extract_words :
    extract_words (strOf "hello2world") = [strOf "hello", strOf "world"] ∧
    get_all_word_parts (strOf "hello2world") = [strOf "hello2world"] := by
  refine ⟨by decide, by decide⟩

/-- C6 (counterexample): the case splitting used by the program is not
acronym-aware: `split_pascal_case` cuts "XMLParser" into one-letter
fragments, not into "XML" and "Parser". -/
theorem split_pascal_case_fragments_cex :
    split_pascal_case (strOf "XMLParser") =
      [strOf "X", strOf "M", strOf "L", strOf "Parser"] ∧
    get_all_word_parts (strOf "XMLParser") ≠ [strOf "XML", strOf "Parser"] := by
  refine ⟨by decide, by decide⟩

/-- C6 (amended): the acronym-aware case splitting is `split_camel_case`
in word_separator.rs (not referenced from main.rs): a non-empty uppercase
run followed by an uppercase then a lowercase character is closed as its
own word at that boundary, and "XMLParser" splits into "XML", "Parser";
the case splitting used by the program, `split_pascal_case`, instead
yields the fragments "X", "M", "L", "Parser". -/
theorem acronym_awareness_in_camel_only :
    (∀ (us : List Char) (u l : Char) (rest : List Char), us ≠ [] →
      (∀ c ∈ us, c.isUpper = true) → u.isUpper = true → l.isLower = true →
      split_camel_case (us ++ u :: l :: rest) =
        us :: split_camel_case (u :: l :: rest)) ∧
    split_camel_case (strOf "XMLParser") = [strOf "XML", strOf "Parser"] ∧
    split_pascal_case (strOf "XMLParser") =
      [strOf "X", strOf "M", strOf "L", strOf "Parser"] := by
  refine ⟨split_camel_case_acronym, by decide, by decide⟩

/-- C6 (witness): the acronym rule at the concrete run "XML" before
"Parser". -/
theorem acronym_awareness_witness :
    split_camel_case (strOf "XMLParser") =
      strOf "XML" :: split_camel_case (strOf "Parser") := by
  have h := acronym_awareness_in_camel_only.1 (strOf "XML") 'P' 'a' (strOf "rser")
    (by decide) (by decide) (by decide) (by decide)
  have e1 : strOf "XML" ++ 'P' :: 'a' :: strOf "rser" = strOf "XMLParser" := by decide
  have e2 : 'P' :: 'a' :: strOf "rser" = strOf "Parser" := by decide
  rw [e1, e2] at h
  exact h

/-- C7: the recursion of `contains_typo` terminates: whenever
segmentation yields two or more parts, every lowercased part handed to
the recursive call is strictly shorter than the input (and a single-part
result returns without recursing). -/
theorem recursion_measure_decreases (s : List Char)
    (h2 : 2 ≤ (get_all_word_parts s).length) :
    ∀ w ∈ get_all_word_parts s, (w.map Char.toLower).length < s.length := by
  intro w hw
  rw [List.length_map]
  exact get_all_word_parts_lt s h2 w hw

/-- C7 (witness): the measure decrease at the concrete token "abXy". -/
theorem recursion_measure_decreases_witness :
    2 ≤ (get_all_word_parts (strOf "abXy")).length ∧
    ∀ w ∈ get_all_word_parts (strOf "abXy"),
      (w.map Char.toLower).length < (strOf "abXy").length :=
  ⟨by decide, recursion_measure_decreases (strOf "abXy") (by decide)⟩

/-- C8: an exact (case-sensitive) dictionary member is never a typo: the
membership check returns before any decomposition. -/
theorem dictionary_member_not_typo (dict : List (List Char)) (s : List Char)
    (h : dict.contains s = true) : contains_typo dict s = false :=
  contains_typo_mem dict s h

/-- C8 (witness): the dictionary member "abc" is not a typo. -/
theorem dictionary_member_not_typo_witness :
    contains_typo [strOf "abc"] (strOf "abc") = false :=
  dictionary_member_not_typo [strOf "abc"] (strOf "abc") (by decide)

/-- C9: the walker counts in `total` exactly the visited nodes whose
kind is in `KIND_TO_TYPE_CHECK` and in `found` exactly those among them
whose text the classifier flags; and a node of kind "comment" with text
of byte length below three is a candidate (counts towards `total`) that
is never flagged (never counts towards `found`). -/
theorem walker_counts_spec (dict : List (List Char)) (root : SNode) :
    handle_file dict root =
      (((preorder root).filter (fun n => KIND_TO_TYPE_CHECK.contains n.kind &&
          contains_typo dict n.text)).length,
       ((preorder root).filter (fun n => KIND_TO_TYPE_CHECK.contains n.kind)).length) ∧
    ∀ n ∈ preorder root, n.kind = strOf "comment" → utf8Len n.text < 3 →
      KIND_TO_TYPE_CHECK.contains n.kind = true ∧
      contains_typo dict n.text = false := by
  constructor
  · rw [handle_file, foldl_visitCounts]
    simp
  · intro n _ hkind hshort
    constructor
    · rw [hkind]
      decide
    · exact contains_typo_short dict n.text hshort

/-- C9 (witness): a one-node tree with a short comment yields
`(found, total) = (0, 1)`. -/
theorem walker_counts_witness :
    handle_file [] (SNode.mk (strOf "comment") (strOf "ab") []) = (0, 1) ∧
    (KIND_TO_TYPE_CHECK.contains (SNode.mk (strOf "comment") (strOf "ab") []).kind = true ∧
      contains_typo [] (SNode.mk (strOf "comment") (strOf "ab") []).text = false) := by
  have h := walker_counts_spec [] (SNode.mk (strOf "comment") (strOf "ab") [])
  constructor
  · rw [h.1]
    decide
  · refine h.2 (SNode.mk (strOf "comment") (strOf "ab") []) ?_ rfl (by decide)
    simp [preorder, preorderList]

/-- C10: a token of byte length at least three, absent from the
dictionary, with no alphanumeric character at all, is not a typo:
segmentation yields zero parts, so the single-part branch does not fire
and the loop over parts is empty. -/
theorem no_word_chars_not_typo (dict : List (List Char)) (s : List Char)
    (h3 : 3 ≤ utf8Len s) (hdict : dict.contains s = false)
    (h : ∀ c ∈ s, c.isAlphanum = false) :
    contains_typo dict s = false ∧ get_all_word_parts s = [] := by
  have hparts := get_all_word_parts_nil s h
  refine ⟨?_, hparts⟩
  rw [contains_typo_unfold, if_neg (by omega), hdict]
  simp [hparts]

/-- C10 (witness): the token "!!!" with the empty dictionary. -/
theorem no_word_chars_not_typo_witness :
    contains_typo [] (strOf "!!!") = false ∧
    get_all_word_parts (strOf "!!!") = [] :=
  no_word_chars_not_typo [] (strOf "!!!") (by decide) (by decide) (by decide)
